import Mathlib

/-!
Verification of the INI configuration differ/patcher (`ini_compare` / `ini_update`)
from `src/config.rs` of the `utils-box` repository.

A parsed INI document is modelled, following the iteration interface of the INI
parsing library used by the source, as an ordered list of sections: each section
is an optional name (`none` is the global/unsectioned pseudo-section) paired
with an ordered list of `(property, value)` string pairs.  `ini_compare` and the
pure text transformation of `ini_update` are translated line by line from the
Rust source; hash-set differences and intersections are rendered as list
filters over first-occurrence key lists (iteration order of a hash set is
irrelevant to every membership property proved below).
-/

/-- A parsed INI document: sections in file order, each an optional section
name (`none` = global section) with its ordered property list.  This mirrors
the `(Option<&str>, &Properties)` iteration of the `Ini` type used by the
source.  Note that `Ini::load_from_file` — the only way documents reach
`ini_compare` — always materializes the general section: rust-ini's `Default
for Ini` creates the instance with an *empty general section* and the parser
only ever adds to it, so every parsed document carries a `none` entry
(possibly with no properties).  `hasGlobalEntry` below captures this
invariant; theorems about global-section behaviour assume it. -/
abbrev Doc := List (Option String × List (String × String))

/-- Mirrors `struct IniParameter { section, property, value }` from
`src/config.rs` (field `section` is renamed `sectionName`: `section` is a
keyword here). -/
structure IniParameter where
  sectionName : Option String
  property : String
  value : String
deriving DecidableEq, Repr

/-- Mirrors `struct IniCompare { updated, added, deleted }` from
`src/config.rs`. -/
structure IniCompare where
  updated : List (IniParameter × IniParameter)
  added : List IniParameter
  deleted : List IniParameter
deriving DecidableEq, Repr

/-- Generic first-match association lookup.  Both `Properties::get` and the
section search `ini.iter().find(|&(sec, _)| sec == s)` of the source are
instances of this. -/
def assocGet {α β : Type} [DecidableEq α] (l : List (α × β)) (x : α) : Option β :=
  (l.find? (fun e => decide (e.1 = x))).map Prod.snd

/-- First value stored under key `k`, mirroring `Properties::get`. -/
def propGet (props : List (String × String)) (k : String) : Option String :=
  assocGet props k

/-- The distinct property names of a section, mirroring the hash set
`a_properties.iter().map(|(key, _)| key).collect()`. -/
def propKeys (props : List (String × String)) : List String :=
  (props.map Prod.fst).dedup

/-- First section entry with the given name, mirroring
`ini.iter().find(|&(sec, _)| sec == s)`. -/
def findSection (d : Doc) (s : Option String) : Option (List (String × String)) :=
  assocGet d s

/-- The distinct *named* sections of a document, mirroring
`ini.iter().filter_map(|(s, _)| s).collect::<HashSet<_>>()`.  Note that this
drops the global (`none`) section, exactly as `filter_map` does in the
source. -/
def sectionNames (d : Doc) : List String :=
  ((d.map Prod.fst).filterMap id).dedup

/-- The value a document assigns to `(s, p)`: look the section up, then the
property. -/
def lookup (d : Doc) (s : Option String) (p : String) : Option String :=
  match findSection d s with
  | some props => propGet props p
  | none => none

/-- The document has an entry (possibly empty) for section `s`. -/
def hasSection (d : Doc) (s : Option String) : Prop :=
  findSection d s ≠ none

instance (d : Doc) (s : Option String) : Decidable (hasSection d s) := by
  unfold hasSection; infer_instance

/-- Invariant of every document produced by `Ini::load_from_file`: rust-ini's
parser starts from `Ini::new()`, whose `Default` instance inserts an empty
general section, so a parsed document always has a `none` entry (possibly
empty). -/
def hasGlobalEntry (d : Doc) : Prop :=
  hasSection d none

instance (d : Doc) : Decidable (hasGlobalEntry d) := by
  unfold hasGlobalEntry; infer_instance

/-- The spec's well-formedness of a `ConfigDocument`: section names are
unique, and property names are unique within each section. -/
def WellFormed (d : Doc) : Prop :=
  (d.map Prod.fst).Nodup ∧ ∀ e ∈ d, (e.2.map Prod.fst).Nodup

instance (d : Doc) : Decidable (WellFormed d) := by
  unfold WellFormed; infer_instance

/-- The `added` list of one common section (`src/config.rs` lines 91-103):
keys of `b_properties` absent from `a_properties`, with `b`'s values. -/
def sectionAdded (sec : Option String) (aProps bProps : List (String × String)) :
    List IniParameter :=
  ((propKeys bProps).filter (fun k => decide (k ∉ propKeys aProps))).filterMap (fun k =>
    (propGet bProps k).map (fun v => ⟨sec, k, v⟩))

/-- The `removed` list of one common section (`src/config.rs` lines 105-117). -/
def sectionRemoved (sec : Option String) (aProps bProps : List (String × String)) :
    List IniParameter :=
  ((propKeys aProps).filter (fun k => decide (k ∉ propKeys bProps))).filterMap (fun k =>
    (propGet aProps k).map (fun v => ⟨sec, k, v⟩))

/-- The `updated` list of one common section (`src/config.rs` lines 119-143):
keys present on both sides whose values differ, `unwrap_or_default()` rendered
as `Option.getD ""`. -/
def sectionUpdated (sec : Option String) (aProps bProps : List (String × String)) :
    List (IniParameter × IniParameter) :=
  ((propKeys aProps).filter (fun k => decide (k ∈ propKeys bProps))).filterMap (fun k =>
    if propGet aProps k ≠ propGet bProps k then
      some (⟨sec, k, (propGet aProps k).getD ""⟩, ⟨sec, k, (propGet bProps k).getD ""⟩)
    else none)

/-- The per-common-section body of the `for (a_section, a_properties) in
a_ini.iter()` loop of `ini_compare` (`src/config.rs` lines 85-150). -/
def compareSection (sec : Option String) (aProps bProps : List (String × String)) :
    IniCompare :=
  { updated := sectionUpdated sec aProps bProps
    added := sectionAdded sec aProps bProps
    deleted := sectionRemoved sec aProps bProps }

/-- The `for &added_section in added_sections` loop of `ini_compare`
(`src/config.rs` lines 54-67): every property of a *named* section of `b`
whose name is not a section name of `a` is emitted whole. -/
def addedSectionParams (a b : Doc) : List IniParameter :=
  ((sectionNames b).filter (fun n => decide (n ∉ sectionNames a))).flatMap (fun n =>
    ((findSection b (some n)).getD []).map (fun kv => ⟨some n, kv.1, kv.2⟩))

/-- The `for &deleted_section in deleted_sections` loop of `ini_compare`
(`src/config.rs` lines 69-82). -/
def deletedSectionParams (a b : Doc) : List IniParameter :=
  ((sectionNames a).filter (fun n => decide (n ∉ sectionNames b))).flatMap (fun n =>
    ((findSection a (some n)).getD []).map (fun kv => ⟨some n, kv.1, kv.2⟩))

/-- The `for (a_section, a_properties) in a_ini.iter()` loop of `ini_compare`
(`src/config.rs` lines 85-150): every section of `a` (the global one
included) that also occurs in `b` is compared key by key. -/
def commonSectionResults (a b : Doc) : List IniCompare :=
  a.flatMap (fun ae =>
    ((findSection b ae.1).map (fun bProps => [compareSection ae.1 ae.2 bProps])).getD [])

/-- Shallow embedding of `ini_compare` (`src/config.rs` lines 37-153) on
already-parsed documents: the named-section set differences produce the
whole-section additions/deletions, then the common sections are compared key
by key and their results appended. -/
def ini_compare (a b : Doc) : IniCompare :=
  { updated := (commonSectionResults a b).flatMap IniCompare.updated
    added := addedSectionParams a b ++ (commonSectionResults a b).flatMap IniCompare.added
    deleted := deletedSectionParams a b ++ (commonSectionResults a b).flatMap IniCompare.deleted }

/-- `(s, p)` is mentioned by the result parameter `q`. -/
def mentionsPair (q : IniParameter) (s : Option String) (p : String) : Prop :=
  q.sectionName = s ∧ q.property = p

/-- Some result entry in `added` is about `(s, p)`. -/
def inAdded (r : IniCompare) (s : Option String) (p : String) : Prop :=
  ∃ q ∈ r.added, mentionsPair q s p

/-- Some result entry in `deleted` is about `(s, p)`. -/
def inDeleted (r : IniCompare) (s : Option String) (p : String) : Prop :=
  ∃ q ∈ r.deleted, mentionsPair q s p

/-- Some updated pair is about `(s, p)` (on either side). -/
def inUpdated (r : IniCompare) (s : Option String) (p : String) : Prop :=
  ∃ pr ∈ r.updated, mentionsPair pr.1 s p ∨ mentionsPair pr.2 s p

instance (q : IniParameter) (s : Option String) (p : String) :
    Decidable (mentionsPair q s p) := by
  unfold mentionsPair; infer_instance

instance (r : IniCompare) (s : Option String) (p : String) : Decidable (inAdded r s p) := by
  unfold inAdded; infer_instance

instance (r : IniCompare) (s : Option String) (p : String) : Decidable (inDeleted r s p) := by
  unfold inDeleted; infer_instance

instance (r : IniCompare) (s : Option String) (p : String) : Decidable (inUpdated r s p) := by
  unfold inUpdated; infer_instance

example :
    ini_compare
      [(some "log", [("log_level", "0"), ("test_removed", "3")])]
      [(some "log", [("log_level", "2")]), (some "power_control", [("test_added", "YEAH")])] =
    { updated := [(⟨some "log", "log_level", "0"⟩, ⟨some "log", "log_level", "2"⟩)]
      added := [⟨some "power_control", "test_added", "YEAH"⟩]
      deleted := [⟨some "log", "test_removed", "3"⟩] } := by decide

/-! ### Lemmas about the association lookups -/

theorem assocGet_cons {α β : Type} [DecidableEq α] (e : α × β) (l : List (α × β)) (x : α) :
    assocGet (e :: l) x = if e.1 = x then some e.2 else assocGet l x := by
  by_cases h : e.1 = x <;> simp [assocGet, List.find?_cons, h]

theorem assocGet_eq_none_iff {α β : Type} [DecidableEq α] {l : List (α × β)} {x : α} :
    assocGet l x = none ↔ x ∉ l.map Prod.fst := by
  induction l with
  | nil => simp [assocGet]
  | cons e t ih =>
    rw [assocGet_cons]
    by_cases h : e.1 = x
    · simp [h]
    · rw [if_neg h, ih]
      simp only [List.map_cons, List.mem_cons]
      constructor
      · intro hx hc
        rcases hc with hc | hc
        · exact h hc.symm
        · exact hx hc
      · intro hx hc
        exact hx (Or.inr hc)

theorem assocGet_mem {α β : Type} [DecidableEq α] {l : List (α × β)} {x : α} {y : β}
    (h : assocGet l x = some y) : (x, y) ∈ l := by
  induction l with
  | nil => simp [assocGet] at h
  | cons e t ih =>
    rw [assocGet_cons] at h
    by_cases he : e.1 = x
    · rw [if_pos he] at h
      have : e = (x, y) := by
        obtain ⟨e1, e2⟩ := e
        simp_all
      simp [this]
    · rw [if_neg he] at h
      exact List.mem_cons_of_mem _ (ih h)

theorem assocGet_of_mem {α β : Type} [DecidableEq α] {l : List (α × β)} {x : α} {y : β}
    (hnd : (l.map Prod.fst).Nodup) (hm : (x, y) ∈ l) : assocGet l x = some y := by
  induction l with
  | nil => simp at hm
  | cons e t ih =>
    have hnd1 : e.1 ∉ t.map Prod.fst := by
      have h2 := hnd
      simp only [List.map_cons, List.nodup_cons] at h2
      exact h2.1
    have hnd2 : (t.map Prod.fst).Nodup := by
      have h2 := hnd
      simp only [List.map_cons, List.nodup_cons] at h2
      exact h2.2
    rw [assocGet_cons]
    rcases List.mem_cons.mp hm with h | h
    · rw [← h]
      simp
    · have hx : x ∈ t.map Prod.fst := List.mem_map.mpr ⟨(x, y), h, rfl⟩
      have hne : e.1 ≠ x := fun hex => hnd1 (hex ▸ hx)
      rw [if_neg hne]
      exact ih hnd2 h

theorem assocGet_isSome_of_mem {α β : Type} [DecidableEq α] {l : List (α × β)} {x : α}
    (h : x ∈ l.map Prod.fst) : ∃ y, assocGet l x = some y := by
  rcases ho : assocGet l x with _ | y
  · exact absurd (assocGet_eq_none_iff.mp ho) (by simp [h])
  · exact ⟨y, rfl⟩

theorem mem_propKeys {props : List (String × String)} {k : String} :
    k ∈ propKeys props ↔ k ∈ props.map Prod.fst := by
  simp [propKeys, List.mem_dedup]

theorem mem_sectionNames {d : Doc} {n : String} :
    n ∈ sectionNames d ↔ some n ∈ d.map Prod.fst := by
  simp [sectionNames, List.mem_dedup, List.mem_filterMap]

theorem hasSection_iff {d : Doc} {s : Option String} :
    hasSection d s ↔ s ∈ d.map Prod.fst := by
  unfold hasSection findSection
  constructor
  · intro h
    by_contra hc
    exact h (assocGet_eq_none_iff.mpr hc)
  · intro h hnone
    exact (assocGet_eq_none_iff.mp hnone) h

theorem hasSection_some_iff {d : Doc} {n : String} :
    hasSection d (some n) ↔ n ∈ sectionNames d := by
  rw [hasSection_iff, mem_sectionNames]

theorem findSection_some_spec {d : Doc} {s : Option String}
    {props : List (String × String)} (h : findSection d s = some props) :
    (s, props) ∈ d :=
  assocGet_mem h

theorem findSection_of_mem {d : Doc} {e : Option String × List (String × String)}
    (hnd : (d.map Prod.fst).Nodup) (he : e ∈ d) : findSection d e.1 = some e.2 :=
  assocGet_of_mem hnd (by simpa using he)

theorem lookup_eq_none_of_not_hasSection {d : Doc} {s : Option String} {p : String}
    (h : ¬ hasSection d s) : lookup d s p = none := by
  unfold hasSection at h
  have hf : findSection d s = none := not_ne_iff.mp h
  unfold lookup
  rw [hf]

theorem lookup_some_spec {d : Doc} {s : Option String} {p v : String}
    (h : lookup d s p = some v) :
    ∃ props, findSection d s = some props ∧ propGet props p = some v := by
  unfold lookup at h
  split at h
  · next props hf => exact ⟨props, hf, h⟩
  · exact absurd h (by simp)

theorem hasSection_of_lookup_some {d : Doc} {s : Option String} {p v : String}
    (h : lookup d s p = some v) : hasSection d s := by
  obtain ⟨props, hf, _⟩ := lookup_some_spec h
  unfold hasSection
  rw [hf]
  simp

theorem lookup_eq_propGet {d : Doc} {s : Option String}
    {props : List (String × String)} (hf : findSection d s = some props) (p : String) :
    lookup d s p = propGet props p := by
  unfold lookup
  rw [hf]

theorem propGet_eq_none_iff {props : List (String × String)} {k : String} :
    propGet props k = none ↔ k ∉ props.map Prod.fst :=
  assocGet_eq_none_iff

theorem propGet_mem {props : List (String × String)} {k v : String}
    (h : propGet props k = some v) : (k, v) ∈ props :=
  assocGet_mem h

theorem propGet_of_mem {props : List (String × String)} {k v : String}
    (hnd : (props.map Prod.fst).Nodup) (hm : (k, v) ∈ props) : propGet props k = some v :=
  assocGet_of_mem hnd hm

theorem propGet_isSome_of_mem {props : List (String × String)} {k : String}
    (h : k ∈ props.map Prod.fst) : ∃ v, propGet props k = some v :=
  assocGet_isSome_of_mem h

/-! ### Characterizing the three lists of one common section -/

theorem cs_added_iff {sec : Option String} {aProps bProps : List (String × String)}
    {q : IniParameter} :
    q ∈ sectionAdded sec aProps bProps ↔
      q.sectionName = sec ∧ propGet bProps q.property = some q.value ∧
        propGet aProps q.property = none := by
  simp only [sectionAdded, List.mem_filterMap, List.mem_filter, Option.map_eq_some',
    decide_eq_true_eq]
  constructor
  · rintro ⟨k, ⟨hkb, hka⟩, v, hv, heq⟩
    subst heq
    exact ⟨rfl, hv, propGet_eq_none_iff.mpr (fun hm => hka (mem_propKeys.mpr hm))⟩
  · rintro ⟨hqs, hb, ha⟩
    refine ⟨q.property, ⟨?_, ?_⟩, q.value, hb, ?_⟩
    · exact mem_propKeys.mpr (List.mem_map.mpr ⟨(q.property, q.value), propGet_mem hb, rfl⟩)
    · exact fun hk => by
        obtain ⟨v', hv'⟩ := propGet_isSome_of_mem (mem_propKeys.mp hk)
        rw [ha] at hv'
        exact Option.noConfusion hv'
    · obtain ⟨qs, qp, qv⟩ := q
      cases hqs
      rfl

theorem cs_removed_iff {sec : Option String} {aProps bProps : List (String × String)}
    {q : IniParameter} :
    q ∈ sectionRemoved sec aProps bProps ↔
      q.sectionName = sec ∧ propGet aProps q.property = some q.value ∧
        propGet bProps q.property = none := by
  simp only [sectionRemoved, List.mem_filterMap, List.mem_filter, Option.map_eq_some',
    decide_eq_true_eq]
  constructor
  · rintro ⟨k, ⟨hka, hkb⟩, v, hv, heq⟩
    subst heq
    exact ⟨rfl, hv, propGet_eq_none_iff.mpr (fun hm => hkb (mem_propKeys.mpr hm))⟩
  · rintro ⟨hqs, ha, hb⟩
    refine ⟨q.property, ⟨?_, ?_⟩, q.value, ha, ?_⟩
    · exact mem_propKeys.mpr (List.mem_map.mpr ⟨(q.property, q.value), propGet_mem ha, rfl⟩)
    · exact fun hk => by
        obtain ⟨v', hv'⟩ := propGet_isSome_of_mem (mem_propKeys.mp hk)
        rw [hb] at hv'
        exact Option.noConfusion hv'
    · obtain ⟨qs, qp, qv⟩ := q
      cases hqs
      rfl

theorem cs_updated_iff {sec : Option String} {aProps bProps : List (String × String)}
    {pr : IniParameter × IniParameter} :
    pr ∈ sectionUpdated sec aProps bProps ↔
      ∃ k va vb, propGet aProps k = some va ∧ propGet bProps k = some vb ∧ va ≠ vb ∧
        pr = (⟨sec, k, va⟩, ⟨sec, k, vb⟩) := by
  simp only [sectionUpdated, List.mem_filterMap, List.mem_filter, decide_eq_true_eq]
  constructor
  · rintro ⟨k, ⟨hka, hkb⟩, hpr⟩
    obtain ⟨va, hva⟩ := propGet_isSome_of_mem (mem_propKeys.mp hka)
    obtain ⟨vb, hvb⟩ := propGet_isSome_of_mem (mem_propKeys.mp hkb)
    split at hpr
    · rename_i hne
      injection hpr with hpr
      refine ⟨k, va, vb, hva, hvb, ?_, ?_⟩
      · intro hv
        apply hne
        rw [hva, hvb, hv]
      · rw [← hpr, hva, hvb]
        rfl
    · exact absurd hpr (by simp)
  · rintro ⟨k, va, vb, hva, hvb, hne, rfl⟩
    refine ⟨k, ⟨?_, ?_⟩, ?_⟩
    · exact mem_propKeys.mpr (List.mem_map.mpr ⟨(k, va), propGet_mem hva, rfl⟩)
    · exact mem_propKeys.mpr (List.mem_map.mpr ⟨(k, vb), propGet_mem hvb, rfl⟩)
    · have hcond : propGet aProps k ≠ propGet bProps k := by
        rw [hva, hvb]
        intro hc
        exact hne (Option.some.inj hc)
      rw [if_pos hcond, hva, hvb]
      rfl

theorem mem_commonSectionResults {a b : Doc} {r : IniCompare} :
    r ∈ commonSectionResults a b ↔
      ∃ ae ∈ a, ∃ bProps, findSection b ae.1 = some bProps ∧
        r = compareSection ae.1 ae.2 bProps := by
  simp only [commonSectionResults, List.mem_flatMap]
  constructor
  · rintro ⟨ae, hae, hr⟩
    rcases hfs : findSection b ae.1 with _ | bProps
    · rw [hfs] at hr
      simp at hr
    · rw [hfs] at hr
      simp only [Option.map_some', Option.getD_some, List.mem_singleton] at hr
      exact ⟨ae, hae, bProps, hfs, hr⟩
  · rintro ⟨ae, hae, bProps, hfs, rfl⟩
    refine ⟨ae, hae, ?_⟩
    rw [hfs]
    simp

/-! ### Characterizing the three lists of the whole comparison -/

theorem mem_addedSectionParams_iff {A B : Doc} (hB : WellFormed B) {q : IniParameter} :
    q ∈ addedSectionParams A B ↔
      ∃ n, q.sectionName = some n ∧ ¬ hasSection A (some n) ∧ hasSection B (some n) ∧
        lookup B (some n) q.property = some q.value := by
  simp only [addedSectionParams, List.mem_flatMap, List.mem_filter, decide_eq_true_eq]
  constructor
  · rintro ⟨n, ⟨hnb, hna⟩, hq⟩
    have hBs : hasSection B (some n) := hasSection_some_iff.mpr hnb
    rcases hf : findSection B (some n) with _ | props
    · exact absurd hf hBs
    · rw [hf] at hq
      simp only [Option.getD_some, List.mem_map] at hq
      obtain ⟨kv, hkv, rfl⟩ := hq
      have hnodup : (props.map Prod.fst).Nodup := hB.2 _ (findSection_some_spec hf)
      refine ⟨n, rfl, fun hAs => hna (hasSection_some_iff.mp hAs), hBs, ?_⟩
      rw [lookup_eq_propGet hf]
      exact propGet_of_mem hnodup hkv
  · rintro ⟨n, hqs, hna, hnb, hlook⟩
    obtain ⟨props, hf, hpg⟩ := lookup_some_spec hlook
    refine ⟨n, ⟨hasSection_some_iff.mp hnb, fun hn => hna (hasSection_some_iff.mpr hn)⟩, ?_⟩
    rw [hf]
    simp only [Option.getD_some, List.mem_map]
    refine ⟨(q.property, q.value), propGet_mem hpg, ?_⟩
    obtain ⟨qs, qp, qv⟩ := q
    cases hqs
    rfl

theorem mem_deletedSectionParams_iff {A B : Doc} (hA : WellFormed A) {q : IniParameter} :
    q ∈ deletedSectionParams A B ↔
      ∃ n, q.sectionName = some n ∧ ¬ hasSection B (some n) ∧ hasSection A (some n) ∧
        lookup A (some n) q.property = some q.value := by
  simp only [deletedSectionParams, List.mem_flatMap, List.mem_filter, decide_eq_true_eq]
  constructor
  · rintro ⟨n, ⟨hna, hnb⟩, hq⟩
    have hAs : hasSection A (some n) := hasSection_some_iff.mpr hna
    rcases hf : findSection A (some n) with _ | props
    · exact absurd hf hAs
    · rw [hf] at hq
      simp only [Option.getD_some, List.mem_map] at hq
      obtain ⟨kv, hkv, rfl⟩ := hq
      have hnodup : (props.map Prod.fst).Nodup := hA.2 _ (findSection_some_spec hf)
      refine ⟨n, rfl, fun hBs => hnb (hasSection_some_iff.mp hBs), hAs, ?_⟩
      rw [lookup_eq_propGet hf]
      exact propGet_of_mem hnodup hkv
  · rintro ⟨n, hqs, hnb, hna, hlook⟩
    obtain ⟨props, hf, hpg⟩ := lookup_some_spec hlook
    refine ⟨n, ⟨hasSection_some_iff.mp hna, fun hn => hnb (hasSection_some_iff.mpr hn)⟩, ?_⟩
    rw [hf]
    simp only [Option.getD_some, List.mem_map]
    refine ⟨(q.property, q.value), propGet_mem hpg, ?_⟩
    obtain ⟨qs, qp, qv⟩ := q
    cases hqs
    rfl

theorem mem_commonAdded_iff {A B : Doc} (hA : WellFormed A) {q : IniParameter} :
    (∃ r ∈ commonSectionResults A B, q ∈ r.added) ↔
      hasSection A q.sectionName ∧
      lookup B q.sectionName q.property = some q.value ∧
      lookup A q.sectionName q.property = none := by
  constructor
  · rintro ⟨r, hr, hq⟩
    obtain ⟨ae, hae, bProps, hfb, rfl⟩ := mem_commonSectionResults.mp hr
    obtain ⟨hqs, hb, ha⟩ := cs_added_iff.mp hq
    have hfa : findSection A ae.1 = some ae.2 := findSection_of_mem hA.1 hae
    rw [hqs]
    refine ⟨?_, ?_, ?_⟩
    · unfold hasSection
      rw [hfa]
      simp
    · rw [lookup_eq_propGet hfb]
      exact hb
    · rw [lookup_eq_propGet hfa]
      exact ha
  · rintro ⟨hAs, hlb, hla⟩
    obtain ⟨bProps, hfb, hpgb⟩ := lookup_some_spec hlb
    rcases hfa : findSection A q.sectionName with _ | aProps
    · exact absurd hfa hAs
    · refine ⟨compareSection q.sectionName aProps bProps, ?_, ?_⟩
      · exact mem_commonSectionResults.mpr
          ⟨(q.sectionName, aProps), findSection_some_spec hfa, bProps, hfb, rfl⟩
      · refine cs_added_iff.mpr ⟨rfl, hpgb, ?_⟩
        rw [← lookup_eq_propGet hfa]
        exact hla

theorem mem_commonRemoved_iff {A B : Doc} (hA : WellFormed A) {q : IniParameter} :
    (∃ r ∈ commonSectionResults A B, q ∈ r.deleted) ↔
      hasSection B q.sectionName ∧
      lookup A q.sectionName q.property = some q.value ∧
      lookup B q.sectionName q.property = none := by
  constructor
  · rintro ⟨r, hr, hq⟩
    obtain ⟨ae, hae, bProps, hfb, rfl⟩ := mem_commonSectionResults.mp hr
    obtain ⟨hqs, ha, hb⟩ := cs_removed_iff.mp hq
    have hfa : findSection A ae.1 = some ae.2 := findSection_of_mem hA.1 hae
    rw [hqs]
    refine ⟨?_, ?_, ?_⟩
    · unfold hasSection
      rw [hfb]
      simp
    · rw [lookup_eq_propGet hfa]
      exact ha
    · rw [lookup_eq_propGet hfb]
      exact hb
  · rintro ⟨hBs, hla, hlb⟩
    obtain ⟨aProps, hfa, hpga⟩ := lookup_some_spec hla
    rcases hfb : findSection B q.sectionName with _ | bProps
    · exact absurd hfb hBs
    · refine ⟨compareSection q.sectionName aProps bProps, ?_, ?_⟩
      · exact mem_commonSectionResults.mpr
          ⟨(q.sectionName, aProps), findSection_some_spec hfa, bProps, hfb, rfl⟩
      · refine cs_removed_iff.mpr ⟨rfl, hpga, ?_⟩
        rw [← lookup_eq_propGet hfb]
        exact hlb

theorem mem_commonUpdated_iff {A B : Doc} (hA : WellFormed A)
    {pr : IniParameter × IniParameter} :
    (∃ r ∈ commonSectionResults A B, pr ∈ r.updated) ↔
      ∃ s p va vb, lookup A s p = some va ∧ lookup B s p = some vb ∧ va ≠ vb ∧
        pr = (⟨s, p, va⟩, ⟨s, p, vb⟩) := by
  constructor
  · rintro ⟨r, hr, hpr⟩
    obtain ⟨ae, hae, bProps, hfb, rfl⟩ := mem_commonSectionResults.mp hr
    obtain ⟨k, va, vb, hva, hvb, hne, rfl⟩ := cs_updated_iff.mp hpr
    have hfa : findSection A ae.1 = some ae.2 := findSection_of_mem hA.1 hae
    refine ⟨ae.1, k, va, vb, ?_, ?_, hne, rfl⟩
    · rw [lookup_eq_propGet hfa]
      exact hva
    · rw [lookup_eq_propGet hfb]
      exact hvb
  · rintro ⟨s, p, va, vb, hla, hlb, hne, rfl⟩
    obtain ⟨aProps, hfa, hpga⟩ := lookup_some_spec hla
    obtain ⟨bProps, hfb, hpgb⟩ := lookup_some_spec hlb
    refine ⟨compareSection s aProps bProps, ?_, ?_⟩
    · exact mem_commonSectionResults.mpr
        ⟨(s, aProps), findSection_some_spec hfa, bProps, hfb, rfl⟩
    · exact cs_updated_iff.mpr ⟨p, va, vb, hpga, hpgb, hne, rfl⟩

/-- Membership in `ini_compare`'s `added`: exactly the pairs that `b` maps to
the given value while `a` does not know them — as long as the section is named
or `a` has a global entry (a global section of `b` alone is silently
skipped by the source). -/
theorem mem_added_iff {A B : Doc} (hA : WellFormed A) (hB : WellFormed B)
    {q : IniParameter} :
    q ∈ (ini_compare A B).added ↔
      lookup B q.sectionName q.property = some q.value ∧
      lookup A q.sectionName q.property = none ∧
      (q.sectionName ≠ none ∨ hasSection A none) := by
  have hsplit : q ∈ (ini_compare A B).added ↔
      q ∈ addedSectionParams A B ∨ ∃ r ∈ commonSectionResults A B, q ∈ r.added := by
    simp [ini_compare, List.mem_append, List.mem_flatMap]
  rw [hsplit, mem_addedSectionParams_iff hB, mem_commonAdded_iff hA]
  constructor
  · rintro (⟨n, hqs, hna, hnb, hlb⟩ | ⟨hAs, hlb, hla⟩)
    · refine ⟨hqs ▸ hlb, ?_, ?_⟩
      · rw [hqs]
        exact lookup_eq_none_of_not_hasSection hna
      · rw [hqs]
        exact Or.inl (by simp)
    · refine ⟨hlb, hla, ?_⟩
      rcases hs : q.sectionName with _ | n
      · exact Or.inr (hs ▸ hAs)
      · exact Or.inl (by simp)
  · rintro ⟨hlb, hla, hguard⟩
    by_cases hAs : hasSection A q.sectionName
    · exact Or.inr ⟨hAs, hlb, hla⟩
    · rcases hs : q.sectionName with _ | n
      · rcases hguard with hg | hg
        · exact absurd hs hg
        · exact absurd (hs ▸ hg) hAs
      · rw [hs] at hAs hlb
        exact Or.inl ⟨n, rfl, hAs, hasSection_of_lookup_some hlb, hlb⟩

/-- Membership in `ini_compare`'s `deleted`, dually. -/
theorem mem_deleted_iff {A B : Doc} (hA : WellFormed A) (_hB : WellFormed B)
    {q : IniParameter} :
    q ∈ (ini_compare A B).deleted ↔
      lookup A q.sectionName q.property = some q.value ∧
      lookup B q.sectionName q.property = none ∧
      (q.sectionName ≠ none ∨ hasSection B none) := by
  have hsplit : q ∈ (ini_compare A B).deleted ↔
      q ∈ deletedSectionParams A B ∨ ∃ r ∈ commonSectionResults A B, q ∈ r.deleted := by
    simp [ini_compare, List.mem_append, List.mem_flatMap]
  rw [hsplit, mem_deletedSectionParams_iff hA, mem_commonRemoved_iff hA]
  constructor
  · rintro (⟨n, hqs, hnb, hna, hla⟩ | ⟨hBs, hla, hlb⟩)
    · refine ⟨hqs ▸ hla, ?_, ?_⟩
      · rw [hqs]
        exact lookup_eq_none_of_not_hasSection hnb
      · rw [hqs]
        exact Or.inl (by simp)
    · refine ⟨hla, hlb, ?_⟩
      rcases hs : q.sectionName with _ | n
      · exact Or.inr (hs ▸ hBs)
      · exact Or.inl (by simp)
  · rintro ⟨hla, hlb, hguard⟩
    by_cases hBs : hasSection B q.sectionName
    · exact Or.inr ⟨hBs, hla, hlb⟩
    · rcases hs : q.sectionName with _ | n
      · rcases hguard with hg | hg
        · exact absurd hs hg
        · exact absurd (hs ▸ hg) hBs
      · rw [hs] at hBs hla
        exact Or.inl ⟨n, rfl, hBs, hasSection_of_lookup_some hla, hla⟩

/-- Membership in `ini_compare`'s `updated`: exactly the common pairs whose
values differ, with `a`'s value on the left and `b`'s on the right. -/
theorem mem_updated_iff {A B : Doc} (hA : WellFormed A)
    {pr : IniParameter × IniParameter} :
    pr ∈ (ini_compare A B).updated ↔
      ∃ s p va vb, lookup A s p = some va ∧ lookup B s p = some vb ∧ va ≠ vb ∧
        pr = (⟨s, p, va⟩, ⟨s, p, vb⟩) := by
  have hsplit : pr ∈ (ini_compare A B).updated ↔
      ∃ r ∈ commonSectionResults A B, pr ∈ r.updated := by
    simp [ini_compare, List.mem_flatMap]
  rw [hsplit, mem_commonUpdated_iff hA]

theorem inAdded_iff {A B : Doc} (hA : WellFormed A) (hB : WellFormed B)
    {s : Option String} {p : String} :
    inAdded (ini_compare A B) s p ↔
      (∃ v, lookup B s p = some v) ∧ lookup A s p = none ∧
        (s ≠ none ∨ hasSection A none) := by
  constructor
  · rintro ⟨q, hq, hqs, hqp⟩
    obtain ⟨hb, ha, hguard⟩ := (mem_added_iff hA hB).mp hq
    rw [hqs] at hguard
    rw [hqs, hqp] at hb ha
    exact ⟨⟨q.value, hb⟩, ha, hguard⟩
  · rintro ⟨⟨v, hv⟩, hnone, hguard⟩
    exact ⟨⟨s, p, v⟩, (mem_added_iff hA hB).mpr ⟨hv, hnone, hguard⟩, rfl, rfl⟩

theorem inDeleted_iff {A B : Doc} (hA : WellFormed A) (hB : WellFormed B)
    {s : Option String} {p : String} :
    inDeleted (ini_compare A B) s p ↔
      (∃ v, lookup A s p = some v) ∧ lookup B s p = none ∧
        (s ≠ none ∨ hasSection B none) := by
  constructor
  · rintro ⟨q, hq, hqs, hqp⟩
    obtain ⟨ha, hb, hguard⟩ := (mem_deleted_iff hA hB).mp hq
    rw [hqs] at hguard
    rw [hqs, hqp] at ha hb
    exact ⟨⟨q.value, ha⟩, hb, hguard⟩
  · rintro ⟨⟨v, hv⟩, hnone, hguard⟩
    exact ⟨⟨s, p, v⟩, (mem_deleted_iff hA hB).mpr ⟨hv, hnone, hguard⟩, rfl, rfl⟩

theorem inUpdated_iff {A B : Doc} (hA : WellFormed A)
    {s : Option String} {p : String} :
    inUpdated (ini_compare A B) s p ↔
      ∃ va vb, lookup A s p = some va ∧ lookup B s p = some vb ∧ va ≠ vb := by
  constructor
  · rintro ⟨pr, hpr, hmention⟩
    obtain ⟨s', p', va, vb, hla, hlb, hne, rfl⟩ := (mem_updated_iff hA).mp hpr
    rcases hmention with ⟨hqs, hqp⟩ | ⟨hqs, hqp⟩ <;>
      (cases hqs; cases hqp; exact ⟨va, vb, hla, hlb, hne⟩)
  · rintro ⟨va, vb, hla, hlb, hne⟩
    exact ⟨(⟨s, p, va⟩, ⟨s, p, vb⟩),
      (mem_updated_iff hA).mpr ⟨s, p, va, vb, hla, hlb, hne, rfl⟩, Or.inl ⟨rfl, rfl⟩⟩

/-- `(s, p)` appears in exactly one of the three collections of `r`. -/
def appearsExactlyOnce (r : IniCompare) (s : Option String) (p : String) : Prop :=
  (inAdded r s p ∧ ¬ inDeleted r s p ∧ ¬ inUpdated r s p) ∨
  (¬ inAdded r s p ∧ inDeleted r s p ∧ ¬ inUpdated r s p) ∨
  (¬ inAdded r s p ∧ ¬ inDeleted r s p ∧ inUpdated r s p)

/-- `(s, p)` appears in none of the three collections of `r`. -/
def appearsNowhere (r : IniCompare) (s : Option String) (p : String) : Prop :=
  ¬ inAdded r s p ∧ ¬ inDeleted r s p ∧ ¬ inUpdated r s p

instance (r : IniCompare) (s : Option String) (p : String) :
    Decidable (appearsExactlyOnce r s p) := by
  unfold appearsExactlyOnce; infer_instance

instance (r : IniCompare) (s : Option String) (p : String) :
    Decidable (appearsNowhere r s p) := by
  unfold appearsNowhere; infer_instance

/-! ### Claims about the differ -/

/-- C3: comparing a well-formed document with itself yields empty `added`,
`deleted` and `updated` collections. -/
theorem ini_compare_self_empty (X : Doc) (hX : WellFormed X) :
    (ini_compare X X).added = [] ∧ (ini_compare X X).deleted = [] ∧
      (ini_compare X X).updated = [] := by
  refine ⟨List.eq_nil_iff_forall_not_mem.mpr ?_, List.eq_nil_iff_forall_not_mem.mpr ?_,
    List.eq_nil_iff_forall_not_mem.mpr ?_⟩
  · intro q hq
    obtain ⟨hb, ha, _⟩ := (mem_added_iff hX hX).mp hq
    exact Option.noConfusion (hb.symm.trans ha)
  · intro q hq
    obtain ⟨ha, hb, _⟩ := (mem_deleted_iff hX hX).mp hq
    exact Option.noConfusion (ha.symm.trans hb)
  · intro pr hpr
    obtain ⟨s, p, va, vb, hla, hlb, hne, _⟩ := (mem_updated_iff hX).mp hpr
    exact hne (Option.some.inj (hla.symm.trans hlb))

theorem ini_compare_self_empty_witness :
    (ini_compare [(none, [("g", "1")]), (some "log", [("log_level", "0")])]
        [(none, [("g", "1")]), (some "log", [("log_level", "0")])]).added = [] ∧
    (ini_compare [(none, [("g", "1")]), (some "log", [("log_level", "0")])]
        [(none, [("g", "1")]), (some "log", [("log_level", "0")])]).deleted = [] ∧
    (ini_compare [(none, [("g", "1")]), (some "log", [("log_level", "0")])]
        [(none, [("g", "1")]), (some "log", [("log_level", "0")])]).updated = [] :=
  ini_compare_self_empty _ (by decide)

/-- C4: every pair in `updated` has equal sections and properties on both
sides, differing values, the left value being `A`'s value of that
(section, property) and the right value being `B`'s. -/
theorem ini_compare_updated_shape (A B : Doc) (hA : WellFormed A)
    (pr : IniParameter × IniParameter) (hpr : pr ∈ (ini_compare A B).updated) :
    pr.1.sectionName = pr.2.sectionName ∧ pr.1.property = pr.2.property ∧
    pr.1.value ≠ pr.2.value ∧
    lookup A pr.1.sectionName pr.1.property = some pr.1.value ∧
    lookup B pr.2.sectionName pr.2.property = some pr.2.value := by
  obtain ⟨s, p, va, vb, hla, hlb, hne, rfl⟩ := (mem_updated_iff hA).mp hpr
  exact ⟨rfl, rfl, hne, hla, hlb⟩

theorem ini_compare_updated_shape_witness :
    ((⟨some "s", "k", "1"⟩, ⟨some "s", "k", "2"⟩) : IniParameter × IniParameter) ∈
        (ini_compare [(some "s", [("k", "1")])] [(some "s", [("k", "2")])]).updated ∧
    lookup [(some "s", [("k", "1")])] (some "s") "k" = some "1" := by
  refine ⟨by decide, ?_⟩
  exact (ini_compare_updated_shape [(some "s", [("k", "1")])] [(some "s", [("k", "2")])]
    (by decide) (⟨some "s", "k", "1"⟩, ⟨some "s", "k", "2"⟩) (by decide)).2.2.2.1

/-- C2: for any (section, property) pair present in at least one of two
parsed documents — well-formed, and each carrying the global entry that the
INI parser always materializes — the pair appears in exactly one of
`added`/`deleted`/`updated` when the two documents disagree on it, and in
none of them exactly when it is present in both with equal values. -/
theorem ini_compare_partition (A B : Doc) (s : Option String) (p : String)
    (hA : WellFormed A) (hB : WellFormed B)
    (hgA : hasGlobalEntry A) (hgB : hasGlobalEntry B)
    (hp : lookup A s p ≠ none ∨ lookup B s p ≠ none) :
    (lookup A s p = lookup B s p → appearsNowhere (ini_compare A B) s p) ∧
    (lookup A s p ≠ lookup B s p → appearsExactlyOnce (ini_compare A B) s p) := by
  have hiA := inAdded_iff (A := A) (B := B) hA hB (s := s) (p := p)
  have hiD := inDeleted_iff (A := A) (B := B) hA hB (s := s) (p := p)
  have hiU := inUpdated_iff (A := A) (B := B) hA (s := s) (p := p)
  constructor
  · intro heq
    rcases hla : lookup A s p with _ | va
    · rcases hlb : lookup B s p with _ | vb
      · rcases hp with h | h
        · exact absurd hla h
        · exact absurd hlb h
      · rw [hla, hlb] at heq
        exact absurd heq (by simp)
    · rcases hlb : lookup B s p with _ | vb
      · rw [hla, hlb] at heq
        exact absurd heq (by simp)
      · have hv : va = vb := by
          rw [hla, hlb] at heq
          exact Option.some.inj heq
        refine ⟨?_, ?_, ?_⟩
        · intro hIn
          obtain ⟨_, hnone, _⟩ := hiA.mp hIn
          exact Option.noConfusion (hla.symm.trans hnone)
        · intro hIn
          obtain ⟨_, hnone, _⟩ := hiD.mp hIn
          exact Option.noConfusion (hlb.symm.trans hnone)
        · intro hIn
          obtain ⟨va', vb', hla', hlb', hne'⟩ := hiU.mp hIn
          apply hne'
          have h1 : va' = va := Option.some.inj (hla'.symm.trans hla)
          have h2 : vb' = vb := Option.some.inj (hlb'.symm.trans hlb)
          rw [h1, h2, hv]
  · intro hneq
    rcases hla : lookup A s p with _ | va
    · rcases hlb : lookup B s p with _ | vb
      · rcases hp with h | h
        · exact absurd hla h
        · exact absurd hlb h
      · have hguard : s ≠ none ∨ hasSection A none := by
          rcases s with _ | n
          · exact Or.inr hgA
          · exact Or.inl (by simp)
        refine Or.inl ⟨hiA.mpr ⟨⟨vb, hlb⟩, hla, hguard⟩, ?_, ?_⟩
        · intro hIn
          obtain ⟨⟨v, hv⟩, _, _⟩ := hiD.mp hIn
          exact Option.noConfusion (hla.symm.trans hv)
        · intro hIn
          obtain ⟨va', _, hla', _, _⟩ := hiU.mp hIn
          exact Option.noConfusion (hla.symm.trans hla')
    · rcases hlb : lookup B s p with _ | vb
      · have hguard : s ≠ none ∨ hasSection B none := by
          rcases s with _ | n
          · exact Or.inr hgB
          · exact Or.inl (by simp)
        refine Or.inr (Or.inl ⟨?_, hiD.mpr ⟨⟨va, hla⟩, hlb, hguard⟩, ?_⟩)
        · intro hIn
          obtain ⟨⟨v, hv⟩, _, _⟩ := hiA.mp hIn
          exact Option.noConfusion (hlb.symm.trans hv)
        · intro hIn
          obtain ⟨_, vb', _, hlb', _⟩ := hiU.mp hIn
          exact Option.noConfusion (hlb.symm.trans hlb')
      · have hvne : va ≠ vb := by
          intro h
          apply hneq
          rw [hla, hlb, h]
        refine Or.inr (Or.inr ⟨?_, ?_, hiU.mpr ⟨va, vb, hla, hlb, hvne⟩⟩)
        · intro hIn
          obtain ⟨_, hnone, _⟩ := hiA.mp hIn
          exact Option.noConfusion (hla.symm.trans hnone)
        · intro hIn
          obtain ⟨_, hnone, _⟩ := hiD.mp hIn
          exact Option.noConfusion (hlb.symm.trans hnone)

theorem ini_compare_partition_witness :
    appearsExactlyOnce
      (ini_compare [(none, []), (some "s", [("k", "1")])]
        [(none, []), (some "s", [("k", "2")])]) (some "s") "k" := by
  have h := ini_compare_partition [(none, []), (some "s", [("k", "1")])]
      [(none, []), (some "s", [("k", "2")])] (some "s") "k"
      (by decide) (by decide) (by decide) (by decide) (by decide)
  exact h.2 (by decide)

/-- C1: between two parsed documents — well-formed, and each carrying the
global entry that the INI parser always materializes — `ini_compare` treats
the global pseudo-section exactly like a named section: global properties of
`B` absent from `A`'s global section are emitted as `added` with `B`'s value,
those of `A` absent from `B` as `deleted` with `A`'s value, and global
properties present in both with differing values as `updated`.  (The
`filter_map(|(s, _)| s)` of the source drops `none` from the section-name
sets, but since the global entry is present on both sides it is always a
*common* section, handled by the common-section loop.) -/
theorem ini_compare_global_section (A B : Doc) (hA : WellFormed A) (hB : WellFormed B)
    (hgA : hasGlobalEntry A) (hgB : hasGlobalEntry B) (p : String) :
    (∀ v, lookup B none p = some v → lookup A none p = none →
      (⟨none, p, v⟩ : IniParameter) ∈ (ini_compare A B).added) ∧
    (∀ v, lookup A none p = some v → lookup B none p = none →
      (⟨none, p, v⟩ : IniParameter) ∈ (ini_compare A B).deleted) ∧
    (∀ va vb, lookup A none p = some va → lookup B none p = some vb → va ≠ vb →
      ((⟨none, p, va⟩, ⟨none, p, vb⟩) : IniParameter × IniParameter) ∈
        (ini_compare A B).updated) := by
  refine ⟨?_, ?_, ?_⟩
  · intro v hvb hva
    exact (mem_added_iff hA hB).mpr ⟨hvb, hva, Or.inr hgA⟩
  · intro v hva hvb
    exact (mem_deleted_iff hA hB).mpr ⟨hva, hvb, Or.inr hgB⟩
  · intro va vb hva hvb hne
    exact (mem_updated_iff hA).mpr ⟨none, p, va, vb, hva, hvb, hne, rfl⟩

theorem ini_compare_global_section_witness :
    (⟨none, "n", "1"⟩ : IniParameter) ∈
      (ini_compare [(none, [("x", "1"), ("d", "1")])]
        [(none, [("x", "2"), ("n", "1")])]).added ∧
    (⟨none, "d", "1"⟩ : IniParameter) ∈
      (ini_compare [(none, [("x", "1"), ("d", "1")])]
        [(none, [("x", "2"), ("n", "1")])]).deleted ∧
    ((⟨none, "x", "1"⟩, ⟨none, "x", "2"⟩) : IniParameter × IniParameter) ∈
      (ini_compare [(none, [("x", "1"), ("d", "1")])]
        [(none, [("x", "2"), ("n", "1")])]).updated := by
  have h := fun q => ini_compare_global_section [(none, [("x", "1"), ("d", "1")])]
      [(none, [("x", "2"), ("n", "1")])] (by decide) (by decide) (by decide) (by decide) q
  exact ⟨(h "n").1 "1" (by decide) (by decide),
    (h "d").2.1 "1" (by decide) (by decide),
    (h "x").2.2 "1" "2" (by decide) (by decide) (by decide)⟩

/-- C5: between two parsed documents — well-formed, and each carrying the
global entry that the INI parser always materializes — for every section `S`
existing in `B` but not in `A`, every property of `S` in `B` appears in
`added` with `B`'s value and no `(S, p)` pair appears in `updated` or
`deleted`; symmetrically, every property of a section existing only in `A`
appears in `deleted` with `A`'s value and in neither `added` nor `updated`.
(Since the global entry exists on both sides, such an `S` is in fact always
named; the theorem covers arbitrary `S`.) -/
theorem ini_compare_section_closure (A B : Doc) (hA : WellFormed A) (hB : WellFormed B)
    (hgA : hasGlobalEntry A) (hgB : hasGlobalEntry B) (S : Option String) :
    (¬ hasSection A S →
      (∀ p v, lookup B S p = some v →
        (⟨S, p, v⟩ : IniParameter) ∈ (ini_compare A B).added) ∧
      (∀ p : String, ¬ inUpdated (ini_compare A B) S p ∧
        ¬ inDeleted (ini_compare A B) S p)) ∧
    (¬ hasSection B S →
      (∀ p v, lookup A S p = some v →
        (⟨S, p, v⟩ : IniParameter) ∈ (ini_compare A B).deleted) ∧
      (∀ p : String, ¬ inUpdated (ini_compare A B) S p ∧
        ¬ inAdded (ini_compare A B) S p)) := by
  constructor
  · intro hnA
    have hS : S ≠ none := by
      intro h
      subst h
      exact hnA hgA
    constructor
    · intro p v hv
      exact (mem_added_iff hA hB).mpr
        ⟨hv, lookup_eq_none_of_not_hasSection hnA, Or.inl hS⟩
    · intro p
      constructor
      · intro hIn
        obtain ⟨va, _, hla, _, _⟩ := (inUpdated_iff hA).mp hIn
        exact hnA (hasSection_of_lookup_some hla)
      · intro hIn
        obtain ⟨⟨v, hv⟩, _, _⟩ := (inDeleted_iff hA hB).mp hIn
        exact hnA (hasSection_of_lookup_some hv)
  · intro hnB
    have hS : S ≠ none := by
      intro h
      subst h
      exact hnB hgB
    constructor
    · intro p v hv
      exact (mem_deleted_iff hA hB).mpr
        ⟨hv, lookup_eq_none_of_not_hasSection hnB, Or.inl hS⟩
    · intro p
      constructor
      · intro hIn
        obtain ⟨_, vb, _, hlb, _⟩ := (inUpdated_iff hA).mp hIn
        exact hnB (hasSection_of_lookup_some hlb)
      · intro hIn
        obtain ⟨⟨v, hv⟩, _, _⟩ := (inAdded_iff hA hB).mp hIn
        exact hnB (hasSection_of_lookup_some hv)

theorem ini_compare_section_closure_witness :
    (⟨some "pc", "ta", "Y"⟩ : IniParameter) ∈
      (ini_compare [(none, []), (some "a", [("x", "1")])]
        [(none, []), (some "a", [("x", "1")]), (some "pc", [("ta", "Y")])]).added := by
  have h := ini_compare_section_closure [(none, []), (some "a", [("x", "1")])]
      [(none, []), (some "a", [("x", "1")]), (some "pc", [("ta", "Y")])]
      (by decide) (by decide) (by decide) (by decide) (some "pc")
  exact (h.1 (by decide)).1 "ta" "Y" (by decide)

/-! ### The patcher: `ini_update` -/

/-- `pat` is a prefix of `s` (character-level rendering of Rust's byte-level
pattern matching; for valid UTF-8 substring search the two coincide). -/
def prefixOfL : List Char → List Char → Bool
  | [], _ => true
  | _ :: _, [] => false
  | p :: ps, c :: cs => p == c && prefixOfL ps cs

/-- `pat` occurs as a contiguous substring of `s`. -/
def containsSub (s pat : List Char) : Bool :=
  (List.range (s.length + 1)).any (fun i => prefixOfL pat (s.drop i))

/-- Fuel-indexed core of Rust's `str::replace`: scan left to right, replacing
each non-overlapping occurrence of `pat` by `rep`.  The fuel only serves
structural recursion; `replaceAll` below supplies enough of it. -/
def replaceAllFuel : Nat → List Char → List Char → List Char → List Char
  | 0, s, _, _ => s
  | _ + 1, [], _, _ => []
  | fuel + 1, c :: rest, pat, rep =>
    if pat ≠ [] ∧ prefixOfL pat (c :: rest) = true then
      rep ++ replaceAllFuel fuel (List.drop pat.length (c :: rest)) pat rep
    else
      c :: replaceAllFuel fuel rest pat rep

/-- Rust's `str::replace` on character lists (the patterns used below,
`"<property> = <value>"` literals, are never empty). -/
def replaceAll (s pat rep : List Char) : List Char :=
  replaceAllFuel s.length s pat rep

/-- `String`-level `str::replace`, mirroring `file_stream.replace(a, b)`. -/
def strReplace (s pat rep : String) : String :=
  ⟨replaceAll s.data pat.data rep.data⟩

/-- The `unprotected_properties` list hardcoded inside `ini_update`
(`src/config.rs` line 166).  Despite its name, the listed properties are the
ones whose *new* value is kept (the spec's "protected" allow-list); every
other updated property is reverted. -/
def unprotected_properties : List String := ["config_file_version"]

/-- The body of the `for updates in comparison.updated.iter()` loop of
`ini_update` (`src/config.rs` lines 168-188): skip the pair when its new
property is in the hardcoded list, otherwise replace the literal
`"<new.property> = <new.value>"` by `"<old.property> = <old.value>"` across
the whole text. -/
def updStep (stream : String) (updates : IniParameter × IniParameter) : String :=
  if unprotected_properties.any (fun x => x == updates.2.property) then stream
  else strReplace stream (updates.2.property ++ " = " ++ updates.2.value)
    (updates.1.property ++ " = " ++ updates.1.value)

/-- The pure text transformation performed by `ini_update` on the target
file's content (`src/config.rs` lines 157-190). -/
def ini_update_text (file_stream : String) (comparison : IniCompare) : String :=
  comparison.updated.foldl updStep file_stream

/-- Models the final write-back of `ini_update` (`src/config.rs` lines
192-195): the file is reopened with `File::options().write(true)` — *without*
`truncate(true)` — and `write_all` then overwrites from offset zero, so any
bytes of the previous content beyond the new length survive in the file. -/
def writeInPlace (oldContent newContent : List Char) : List Char :=
  newContent ++ oldContent.drop newContent.length

/-- The target file's content after `ini_update` returns successfully. -/
def ini_update_file (content : String) (comparison : IniCompare) : String :=
  ⟨writeInPlace content.data (ini_update_text content comparison).data⟩

example : ini_update_text "log_level = 2"
    ⟨[(⟨some "log", "log_level", "0"⟩, ⟨some "log", "log_level", "2"⟩)], [], []⟩ =
    "log_level = 0" := by decide

example : ini_update_text "config_file_version = 10.1"
    ⟨[(⟨some "version", "config_file_version", "10.0"⟩,
       ⟨some "version", "config_file_version", "10.1"⟩)], [], []⟩ =
    "config_file_version = 10.1" := by decide

/-- C8: the patched text depends only on the target text and the `updated`
collection of the comparison — `added` and `deleted` are never consulted. -/
theorem ini_update_text_depends_only_on_updated (text : String)
    (c1 c2 : IniCompare) (h : c1.updated = c2.updated) :
    ini_update_text text c1 = ini_update_text text c2 := by
  unfold ini_update_text
  rw [h]

theorem ini_update_text_depends_only_on_updated_witness :
    ini_update_text "x = 1"
      ⟨[(⟨none, "x", "0"⟩, ⟨none, "x", "1"⟩)], [⟨none, "a", "1"⟩], []⟩ =
    ini_update_text "x = 1"
      ⟨[(⟨none, "x", "0"⟩, ⟨none, "x", "1"⟩)], [], [⟨none, "b", "2"⟩]⟩ :=
  ini_update_text_depends_only_on_updated "x = 1" _ _ rfl

/-- C9: the write-back is *not* a clean replacement.  With target content
`"a = 22"` and the single updated pair `(a = 1, a = 22)`, the substituted
text is `"a = 1"` (5 bytes), but because `ini_update` reopens the file
without truncation, the byte `'2'` of the old 6-byte content survives and
the file ends up holding `"a = 12"` — not the substituted text. -/
theorem ini_update_file_stale_tail :
    ini_update_text "a = 22" ⟨[(⟨none, "a", "1"⟩, ⟨none, "a", "22"⟩)], [], []⟩ = "a = 1" ∧
    ini_update_file "a = 22" ⟨[(⟨none, "a", "1"⟩, ⟨none, "a", "22"⟩)], [], []⟩ = "a = 12" ∧
    ini_update_file "a = 22" ⟨[(⟨none, "a", "1"⟩, ⟨none, "a", "22"⟩)], [], []⟩ ≠
      ini_update_text "a = 22" ⟨[(⟨none, "a", "1"⟩, ⟨none, "a", "22"⟩)], [], []⟩ := by
  decide

theorem foldl_updStep_all_protected (text : String)
    (l : List (IniParameter × IniParameter))
    (h : ∀ pr ∈ l, unprotected_properties.any (fun x => x == pr.2.property) = true) :
    l.foldl updStep text = text := by
  induction l generalizing text with
  | nil => rfl
  | cons pr t ih =>
    rw [List.foldl_cons]
    have hstep : updStep text pr = text := by
      unfold updStep
      rw [if_pos (h pr (List.mem_cons_self pr t))]
    rw [hstep]
    exact ih text (fun q hq => h q (List.mem_cons_of_mem _ hq))

theorem foldl_updStep_filter (text : String) (l : List (IniParameter × IniParameter)) :
    l.foldl updStep text =
      (l.filter (fun pr =>
        !(unprotected_properties.any (fun x => x == pr.2.property)))).foldl updStep text := by
  induction l generalizing text with
  | nil => rfl
  | cons pr t ih =>
    rw [List.foldl_cons, List.filter_cons]
    by_cases hp : unprotected_properties.any (fun x => x == pr.2.property) = true
    · have hstep : updStep text pr = text := by
        unfold updStep
        rw [if_pos hp]
      have hcond : (!(unprotected_properties.any (fun x => x == pr.2.property))) = false := by
        rw [hp]
        rfl
      rw [hstep, hcond]
      simp only [Bool.false_eq_true, if_false]
      exact ih text
    · have hp' : (unprotected_properties.any (fun x => x == pr.2.property)) = false := by
        cases hany : unprotected_properties.any (fun x => x == pr.2.property) with
        | false => rfl
        | true => exact absurd hany hp
      have hcond : (!(unprotected_properties.any (fun x => x == pr.2.property))) = true := by
        rw [hp']
        rfl
      rw [hcond]
      simp only [if_true]
      rw [List.foldl_cons]
      exact ih (updStep text pr)

/-- C6 counterexample: the protected pair `(config_file_version = 3,
config_file_version = 7)` is skipped, yet the non-protected pair
`(file_version = 3, file_version = 7)` rewrites the literal
`"file_version = 7"` *inside* `"config_file_version = 7"`, so the output no
longer contains the protected pair's new literal even though the input did
(and it now contains the old one). -/
theorem ini_update_protected_cex :
    ("config_file_version" ∈ unprotected_properties) ∧
    containsSub ("config_file_version = 7" : String).data
      ("config_file_version" ++ " = " ++ "7" : String).data = true ∧
    ini_update_text "config_file_version = 7"
      ⟨[(⟨some "s", "config_file_version", "3"⟩, ⟨some "s", "config_file_version", "7"⟩),
        (⟨some "s", "file_version", "3"⟩, ⟨some "s", "file_version", "7"⟩)], [], []⟩ =
      "config_file_version = 3" ∧
    containsSub ("config_file_version = 3" : String).data
      ("config_file_version" ++ " = " ++ "7" : String).data = false := by
  decide

/-- C6 amended: a pair whose new property is in the protected list is skipped
entirely — it contributes no replacement.  Hence whenever *every* updated
pair is protected, the patcher leaves the text unchanged, so the output
contains each new `"property = value"` literal wherever the input did; with a
mix of pairs, a non-protected pair's replacement may still rewrite text
overlapping a protected pair's literal (see the counterexample). -/
theorem ini_update_protected_skip (text : String) (comparison : IniCompare)
    (h : ∀ pr ∈ comparison.updated,
      unprotected_properties.any (fun x => x == pr.2.property) = true) :
    ini_update_text text comparison = text :=
  foldl_updStep_all_protected text comparison.updated h

theorem ini_update_protected_skip_witness :
    ini_update_text "config_file_version = 2"
      ⟨[(⟨none, "config_file_version", "1"⟩, ⟨none, "config_file_version", "2"⟩)],
        [], []⟩ = "config_file_version = 2" :=
  ini_update_protected_skip _ _ (by decide)

/-- C10: the protected set is hardcoded: `unprotected_properties` is exactly
`["config_file_version"]`, its membership test accepts exactly the property
`"config_file_version"`, and dropping the pairs with that property from
`updated` never changes the patcher's output — callers (who cannot pass a
protected set; `ini_update` takes none) can neither protect another property
nor un-protect this one. -/
theorem ini_update_hardcoded_protected :
    unprotected_properties = ["config_file_version"] ∧
    (∀ p : String, (unprotected_properties.any (fun x => x == p) = true ↔
      p = "config_file_version")) ∧
    (∀ (text : String) (comparison : IniCompare),
      ini_update_text text comparison = ini_update_text text
        ⟨comparison.updated.filter
          (fun pr => !(unprotected_properties.any (fun x => x == pr.2.property))),
         comparison.added, comparison.deleted⟩) := by
  refine ⟨rfl, ?_, ?_⟩
  · intro p
    constructor
    · intro h
      simp only [unprotected_properties, List.any_cons, List.any_nil, Bool.or_false] at h
      exact (beq_iff_eq.mp h).symm
    · intro h
      subst h
      decide
  · intro text comparison
    exact foldl_updStep_filter text comparison.updated

theorem prefixOfL_iff {pat s : List Char} :
    prefixOfL pat s = true ↔ ∃ t, s = pat ++ t := by
  induction pat generalizing s with
  | nil => simp [prefixOfL]
  | cons p ps ih =>
    cases s with
    | nil =>
      simp [prefixOfL]
    | cons c cs =>
      simp only [prefixOfL, Bool.and_eq_true, beq_iff_eq, ih, List.cons_append]
      constructor
      · rintro ⟨rfl, t, rfl⟩
        exact ⟨t, rfl⟩
      · rintro ⟨t, heq⟩
        injection heq with h1 h2
        exact ⟨h1.symm, t, h2⟩

theorem prefixOfL_append (pat t : List Char) : prefixOfL pat (pat ++ t) = true :=
  prefixOfL_iff.mpr ⟨t, rfl⟩

theorem containsSub_iff {s pat : List Char} :
    containsSub s pat = true ↔
      ∃ i, i ≤ s.length ∧ prefixOfL pat (s.drop i) = true := by
  simp [containsSub, List.any_eq_true, List.mem_range, Nat.lt_succ_iff]

theorem containsSub_append_middle (u w pat : List Char) :
    containsSub (u ++ pat ++ w) pat = true := by
  refine containsSub_iff.mpr ⟨u.length, ?_, ?_⟩
  · simp [List.length_append]
  · rw [List.append_assoc, List.drop_left]
    exact prefixOfL_append pat w

theorem containsSub_cons (c : Char) (s pat : List Char) :
    containsSub (c :: s) pat = (prefixOfL pat (c :: s) || containsSub s pat) := by
  simp only [containsSub, List.length_cons, List.range_succ_eq_map, List.any_cons,
    List.any_map, List.drop_zero]
  rfl

theorem containsSub_cons_false {c : Char} {s pat : List Char}
    (h : containsSub (c :: s) pat = false) :
    prefixOfL pat (c :: s) = false ∧ containsSub s pat = false := by
  rw [containsSub_cons] at h
  exact Bool.or_eq_false_iff.mp h

theorem replaceAllFuel_nil (fuel : Nat) (pat rep : List Char) :
    replaceAllFuel fuel [] pat rep = [] := by
  cases fuel <;> rfl

theorem replaceAllFuel_congr : ∀ (f1 f2 : Nat) (s pat rep : List Char),
    s.length ≤ f1 → s.length ≤ f2 →
    replaceAllFuel f1 s pat rep = replaceAllFuel f2 s pat rep := by
  intro f1
  induction f1 with
  | zero =>
    intro f2 s pat rep h1 _
    have hs : s = [] := List.eq_nil_of_length_eq_zero (Nat.le_zero.mp h1)
    subst hs
    rw [replaceAllFuel_nil, replaceAllFuel_nil]
  | succ f1' ih =>
    intro f2 s pat rep h1 h2
    cases s with
    | nil => rw [replaceAllFuel_nil, replaceAllFuel_nil]
    | cons c rest =>
      cases f2 with
      | zero => exact absurd h2 (by simp)
      | succ f2' =>
        simp only [replaceAllFuel]
        by_cases hc : pat ≠ [] ∧ prefixOfL pat (c :: rest) = true
        · rw [if_pos hc, if_pos hc]
          congr 1
          have hplen : 1 ≤ pat.length := by
            rcases hc with ⟨hne, _⟩
            cases pat with
            | nil => exact absurd rfl hne
            | cons _ _ => simp
          have hlen1 : (c :: rest).length ≤ f1' + 1 := h1
          have hlen2 : (c :: rest).length ≤ f2' + 1 := h2
          apply ih
          · rw [List.length_drop]
            simp only [List.length_cons] at hlen1 ⊢
            omega
          · rw [List.length_drop]
            simp only [List.length_cons] at hlen2 ⊢
            omega
        · rw [if_neg hc, if_neg hc]
          congr 1
          have hlen1 : (c :: rest).length ≤ f1' + 1 := h1
          have hlen2 : (c :: rest).length ≤ f2' + 1 := h2
          simp only [List.length_cons] at hlen1 hlen2
          exact ih f2' rest pat rep (by omega) (by omega)

theorem replaceAll_cons (c : Char) (rest pat rep : List Char) :
    replaceAll (c :: rest) pat rep =
      if pat ≠ [] ∧ prefixOfL pat (c :: rest) = true then
        rep ++ replaceAll (List.drop pat.length (c :: rest)) pat rep
      else c :: replaceAll rest pat rep := by
  unfold replaceAll
  simp only [List.length_cons, replaceAllFuel]
  by_cases hc : pat ≠ [] ∧ prefixOfL pat (c :: rest) = true
  · rw [if_pos hc, if_pos hc]
    congr 1
    have hplen : 1 ≤ pat.length := by
      rcases hc with ⟨hne, _⟩
      cases pat with
      | nil => exact absurd rfl hne
      | cons _ _ => simp
    apply replaceAllFuel_congr
    · rw [List.length_drop]
      simp only [List.length_cons]
      omega
    · exact Nat.le_refl _
  · rw [if_neg hc, if_neg hc]

theorem replaceAll_of_not_contains {s pat : List Char} (rep : List Char)
    (h : containsSub s pat = false) : replaceAll s pat rep = s := by
  induction s with
  | nil => rfl
  | cons c rest ih =>
    obtain ⟨h0, htail⟩ := containsSub_cons_false h
    rw [replaceAll_cons]
    have hcond : ¬ (pat ≠ [] ∧ prefixOfL pat (c :: rest) = true) := by
      rintro ⟨_, hpre⟩
      rw [h0] at hpre
      cases hpre
    rw [if_neg hcond, ih htail]

theorem replaceAll_first_occurrence (u v pat rep : List Char) (hne : pat ≠ [])
    (hu : ∀ i, i < u.length → prefixOfL pat ((u ++ pat ++ v).drop i) = false) :
    replaceAll (u ++ pat ++ v) pat rep = u ++ rep ++ replaceAll v pat rep := by
  induction u with
  | nil =>
    cases pat with
    | nil => exact absurd rfl hne
    | cons p ps =>
      simp only [List.nil_append, List.cons_append]
      rw [replaceAll_cons]
      have hpre : prefixOfL (p :: ps) (p :: (ps ++ v)) = true := by
        have h2 := prefixOfL_append (p :: ps) v
        simpa using h2
      rw [if_pos ⟨hne, hpre⟩]
      congr 1
      have hdrop : List.drop (p :: ps).length (p :: (ps ++ v)) = v := by
        simp only [List.length_cons, List.drop_succ_cons]
        exact List.drop_left ps v
      rw [hdrop]
  | cons c u' ih =>
    have hassoc : (c :: u') ++ pat ++ v = c :: (u' ++ pat ++ v) := by
      simp
    rw [hassoc, replaceAll_cons]
    have h0 : prefixOfL pat (c :: (u' ++ pat ++ v)) = false := by
      have h2 := hu 0 (by simp)
      rw [hassoc] at h2
      simpa using h2
    have hcond : ¬ (pat ≠ [] ∧ prefixOfL pat (c :: (u' ++ pat ++ v)) = true) := by
      rintro ⟨_, hpre⟩
      rw [h0] at hpre
      cases hpre
    rw [if_neg hcond]
    have hu' : ∀ i, i < u'.length → prefixOfL pat ((u' ++ pat ++ v).drop i) = false := by
      intro i hi
      have h2 := hu (i + 1) (by simp only [List.length_cons]; omega)
      rw [hassoc, List.drop_succ_cons] at h2
      exact h2
    rw [ih hu']
    simp

theorem litData_ne_nil (p v : String) : (p ++ " = " ++ v).data ≠ [] := by
  intro hnil
  have hlen := congrArg List.length hnil
  rw [String.data_append, String.data_append, List.length_append, List.length_append] at hlen
  simp only [List.length_nil, List.length_cons] at hlen
  omega

/-- C7 counterexample: one non-protected pair with property `"a"`, old value
`"a = a"` and new value `"a"`.  The new literal `"a = a"` occurs exactly once
in the target text `"a = a"`, yet after patching the text is `"a = a = a"`,
which still *contains* the new literal — the replacement itself reintroduced
it, so "no longer contains the new one" fails even under the uniqueness
assumption. -/
theorem ini_update_reversion_cex :
    containsSub ("a = a" : String).data ("a" ++ " = " ++ "a" : String).data = true ∧
    (∀ i, i ≤ ("a = a" : String).data.length →
      prefixOfL ("a" ++ " = " ++ "a" : String).data (("a = a" : String).data.drop i) =
          true → i = 0) ∧
    ini_update_text "a = a" ⟨[(⟨none, "a", "a = a"⟩, ⟨none, "a", "a"⟩)], [], []⟩ =
      "a = a = a" ∧
    containsSub ("a = a = a" : String).data ("a" ++ " = " ++ "a" : String).data =
      true := by
  decide

/-- C7 amended: for a comparison whose `updated` is the single non-protected
pair `(old, new)`, if the target text splits as `u ++ newLit ++ v` where the
shown occurrence of the new literal is the leftmost one and none occurs in
`v`, then the patched text is exactly `u ++ oldLit ++ v`: it contains the old
literal, and — *provided the new literal does not occur in that substituted
text* (the extra assumption forced by the counterexample) — no longer
contains the new literal.  With several updated pairs the other pairs'
replacements may interfere; the substitution is a plain substring replacement
over the entire raw text, never section-scoped. -/
theorem ini_update_reversion (old new : IniParameter) (text : String)
    (u v : List Char)
    (hprot : unprotected_properties.any (fun x => x == new.property) = false)
    (hsplit : text.data = u ++ (new.property ++ " = " ++ new.value).data ++ v)
    (hfirst : ∀ i, i < u.length →
      prefixOfL (new.property ++ " = " ++ new.value).data (text.data.drop i) = false)
    (hv : containsSub v (new.property ++ " = " ++ new.value).data = false)
    (hres : containsSub (u ++ (old.property ++ " = " ++ old.value).data ++ v)
      (new.property ++ " = " ++ new.value).data = false) :
    (ini_update_text text ⟨[(old, new)], [], []⟩).data =
        u ++ (old.property ++ " = " ++ old.value).data ++ v ∧
    containsSub (ini_update_text text ⟨[(old, new)], [], []⟩).data
        (old.property ++ " = " ++ old.value).data = true ∧
    containsSub (ini_update_text text ⟨[(old, new)], [], []⟩).data
        (new.property ++ " = " ++ new.value).data = false := by
  have hne : (new.property ++ " = " ++ new.value).data ≠ [] :=
    litData_ne_nil new.property new.value
  simp only [hsplit] at hfirst
  have hmain : (ini_update_text text ⟨[(old, new)], [], []⟩).data =
      u ++ (old.property ++ " = " ++ old.value).data ++ v := by
    show (updStep text (old, new)).data = _
    unfold updStep
    rw [if_neg (by rw [hprot]; exact fun hc => Bool.noConfusion hc)]
    show replaceAll text.data (new.property ++ " = " ++ new.value).data
        (old.property ++ " = " ++ old.value).data = _
    rw [hsplit, replaceAll_first_occurrence _ _ _ _ hne hfirst,
      replaceAll_of_not_contains _ hv]
  refine ⟨hmain, ?_, ?_⟩
  · rw [hmain]
    exact containsSub_append_middle u v (old.property ++ " = " ++ old.value).data
  · rw [hmain]
    exact hres

theorem ini_update_reversion_witness :
    (ini_update_text "k = 2" ⟨[(⟨none, "k", "0"⟩, ⟨none, "k", "2"⟩)], [], []⟩).data =
      [] ++ ("k" ++ " = " ++ "0" : String).data ++ [] :=
  (ini_update_reversion ⟨none, "k", "0"⟩ ⟨none, "k", "2"⟩ "k = 2" [] []
    (by decide) (by decide) (by decide) (by decide) (by decide)).1
